import Mathlib

/-!
# Verification of the seed-data generator (`my_app/management/commands/seed_data.py`)

Shallow embedding of the synthetic roster/team generator: the team-size
partitioner, the biased Likert-score sampler, and the orchestration loop of the
`seed_data` management command (record creation, CSV export buckets, and the
transaction boundary).  Randomness is modelled by an injected oracle: each call
of the source's `random.Random` instance consumes one position of a counter that
is threaded through the run, and the oracle maps the counter to the drawn value,
so one oracle value-stream corresponds to one seeded generator state.
-/

namespace SeedData

/-- Python's `round` applied to the exact rational `a / b` (both nonnegative):
round half to even, phrased in integer arithmetic (`f + 1` exactly when the
remainder exceeds half the divisor, or ties with an odd quotient).  The float
quotient rounded in the source (`num_students / ((min_team + max_team) / 2)`)
is either exactly a representable half-integer or far enough from one that
double rounding error cannot cross the boundary, so rounding the exact
rational is faithful to CPython's behaviour. -/
def pyRoundDiv (a b : ℕ) : ℕ :=
  let f := a / b
  let rem := a % b
  if 2 * rem < b then f
  else if b < 2 * rem then f + 1
  else if f % 2 = 0 then f else f + 1

/-- Python's `round` on an exact rational value (round half to even), phrased
on the numerator and denominator so that it evaluates by integer arithmetic.
`f` is the floor of `q` and `rem = q.num - f * q.den` the nonnegative
remainder, so `q - f` compares to `1/2` as `2 * rem` compares to `q.den`. -/
def roundHalfEven (q : ℚ) : ℤ :=
  let f : ℤ := q.num.fdiv q.den
  let rem : ℤ := q.num - f * q.den
  if 2 * rem < (q.den : ℤ) then f
  else if (q.den : ℤ) < 2 * rem then f + 1
  else if f % 2 = 0 then f else f + 1

/-- One pass of the surplus-distribution `for i in idxs:` loop of
`partition_into_teams` (seed_data.py lines 47-53): walk the shuffled index
list; each index whose team is still below `maxT` receives one unit while
students remain unassigned.  Returns (sizes, assigned, progressed). -/
def innerPass (n maxT : ℕ) : List ℕ → List ℕ → ℕ → List ℕ × ℕ × Bool
  | [], sizes, assigned => (sizes, assigned, false)
  | i :: rest, sizes, assigned =>
    match sizes[i]? with
    | some v =>
      if v < maxT ∧ assigned < n then
        let r := innerPass n maxT rest (sizes.set i (v + 1)) (assigned + 1)
        (r.1, r.2.1, true)
      else innerPass n maxT rest sizes assigned
    | none => innerPass n maxT rest sizes assigned

/-- The `while assigned < num_students:` loop of `partition_into_teams`
(lines 43-61).  `sh c len` models the result of `rng.shuffle` on
`list(range(len))` at rng-call counter `c`.  Fuel bounds the iteration count
(the source loop strictly increases `assigned`, so `n + 1` fuel suffices on
every reachable input); `none` models non-termination, which does not occur.
Returns (sizes, assigned, next counter). -/
def outerLoop (n minT maxT : ℕ) (sh : ℕ → ℕ → List ℕ) :
    ℕ → List ℕ → ℕ → ℕ → Option (List ℕ × ℕ × ℕ)
  | 0, sizes, assigned, c =>
    if assigned < n then none else some (sizes, assigned, c)
  | fuel + 1, sizes, assigned, c =>
    if assigned < n then
      let idxs := sh c sizes.length
      let step := innerPass n maxT idxs sizes assigned
      if step.2.2 then
        outerLoop n minT maxT sh fuel step.1 step.2.1 (c + 1)
      else
        let remain := n - step.2.1
        if remain = 0 then some (step.1, step.2.1, c + 1)
        else
          let add := min (max remain minT) maxT
          outerLoop n minT maxT sh fuel (step.1 ++ [add]) (step.2.1 + add) (c + 1)
    else some (sizes, assigned, c)

/-- The overshoot-correction loop of `partition_into_teams` (lines 62-69):
iterate from the last team to the first, taking back at most
`sizes[i] - min_team` from each while overflow remains.  The recursion
processes the tail (the later teams) before the head, matching the reversed
index order.  Returns (corrected sizes, remaining overflow). -/
def removeOverflow (minT : ℕ) : List ℕ → ℕ → List ℕ × ℕ
  | [], ov => ([], ov)
  | s :: rest, ov =>
    let r := removeOverflow minT rest ov
    let take := min r.2 (s - minT)
    ((s - take) :: r.1, r.2 - take)

/-- `partition_into_teams` (lines 33-71) up to but not including the final
`assert sum(sizes) == num_students`: early returns for `n = 0` and
`n < min_team`, the initial team-count estimate (with Python's banker
rounding), the surplus-distribution loop, and the overshoot correction.
Returns (sizes, next rng counter). -/
def partitionCore (n minT maxT : ℕ) (sh : ℕ → ℕ → List ℕ) (c0 : ℕ) :
    Option (List ℕ × ℕ) :=
  if n = 0 then some ([], c0)
  else if n < minT then some ([n], c0)
  else
    let lower := max 1 (n / maxT)
    let approx := max 1 (pyRoundDiv (2 * n) (minT + maxT))
    let tc := max lower approx
    match outerLoop n minT maxT sh (n + 1) (List.replicate tc minT) (minT * tc) c0 with
    | none => none
    | some (sizes, assigned, c1) =>
      let sizes' := if n < assigned then (removeOverflow minT sizes (assigned - n)).1 else sizes
      some (sizes', c1)

/-- `partition_into_teams` including the final assertion: `none` models the
`AssertionError` raised when the computed sizes do not sum to `n`. -/
def partition_into_teams (n minT maxT : ℕ) (sh : ℕ → ℕ → List ℕ) (c0 : ℕ) :
    Option (List ℕ × ℕ) :=
  match partitionCore n minT maxT sh c0 with
  | none => none
  | some (sizes, c1) => if sizes.sum = n then some (sizes, c1) else none

/-- `biased_score` (lines 73-76): `a` is the value drawn by
`rng.triangular(1, max_score, max_score)`; the source rounds it to the nearest
integer (Python `round`, half to even) and clamps into `[1, max_score]`. -/
def biased_score (a : ℚ) (maxScore : ℤ) : ℤ :=
  max 1 (min maxScore (roundHalfEven a))

/-- The identity shuffle oracle: leaves `list(range(len))` in order.  A real
`random.Random` state can produce exactly this behaviour, so it is a valid
instantiation of "some state of the injected generator". -/
def shId : ℕ → ℕ → List ℕ := fun _ len => List.range len

/-- Oracle for the injected `random.Random` instance.  The command creates one
generator from the seed (`rng = random.Random(opt["seed"])`, line 101) and
every random choice consumes it, so a run's randomness is one value stream:
call number `c` of the stream yields `nat c lo hi` for `rng.randint(lo, hi)`,
`shuf c len` for the index order produced by `rng.shuffle` on a length-`len`
list, and `tri c` for the value drawn by `rng.triangular(1, m, m)`. -/
structure Rng where
  nat : ℕ → ℕ → ℕ → ℕ
  shuf : ℕ → ℕ → List ℕ
  tri : ℕ → ℚ

/-- Apply a shuffle's index order to a list: element `i` of the result is
`l[idxs[i]]`.  When `idxs` is a permutation of `range l.length` this is
exactly an in-place `rng.shuffle(l)`. -/
def permuteBy (idxs : List ℕ) (l : List α) : List α :=
  idxs.filterMap fun i => l[i]?

/-- A shuffle oracle is valid when every call returns a permutation of the
index range, which is all `random.Random.shuffle` can produce. -/
def Rng.ShufValid (rng : Rng) : Prop :=
  ∀ c len, (rng.shuf c len).Perm (List.range len)

/-- Byte-wise (code-point) comparison of Python strings, as used by the
database ordering `order_by("email")` on ASCII emails. -/
def charListLt : List Char → List Char → Bool
  | [], [] => false
  | [], _ :: _ => true
  | _ :: _, [] => false
  | c :: cs, d :: ds =>
    if c.toNat < d.toNat then true
    else if d.toNat < c.toNat then false
    else charListLt cs ds

/-- `User` row: id, email, name, role. -/
structure UserM where
  id : ℕ
  email : String
  name : String
  role : String
deriving DecidableEq, Repr, Inhabited

/-- `Course` row. -/
structure CourseM where
  id : ℕ
  number : String
  name : String
  semester : String
  year : String
  teacherId : ℕ
deriving DecidableEq, Repr, Inhabited

/-- `CourseMember` row. -/
structure CourseMemberM where
  id : ℕ
  courseId : ℕ
  userId : ℕ
deriving DecidableEq, Repr, Inhabited

/-- `Team` row. -/
structure TeamM where
  id : ℕ
  courseId : ℕ
  name : String
deriving DecidableEq, Repr, Inhabited

/-- `TeamMember` row. -/
structure TeamMemberM where
  id : ℕ
  teamId : ℕ
  courseMemberId : ℕ
deriving DecidableEq, Repr, Inhabited

/-- Naive wall-clock timestamp (year, month, day, hour, minute); the source
attaches the current timezone, which carries no information the claims need. -/
structure DateTimeM where
  year : ℕ
  month : ℕ
  day : ℕ
  hour : ℕ
  minute : ℕ
deriving DecidableEq, Repr, Inhabited

/-- `Assessment` row. -/
structure AssessmentM where
  id : ℕ
  courseId : ℕ
  title : String
  status : String
  publishDate : DateTimeM
  dueDate : DateTimeM
  resultsReleased : Bool
deriving DecidableEq, Repr, Inhabited

/-- `AssessmentQuestion` row. -/
structure QuestionM where
  id : ℕ
  assessmentId : ℕ
  questionType : String
  content : String
deriving DecidableEq, Repr, Inhabited

/-- `AssessmentResponse` row; `answers` is the JSON mapping from question id
(stringified in the source; kept numeric here) to the sampled integer score. -/
structure ResponseM where
  id : ℕ
  assessmentId : ℕ
  fromUserId : ℕ
  toUserId : ℕ
  answers : List (ℕ × ℤ)
  submitted : Bool
deriving DecidableEq, Repr, Inhabited

/-- Inputs of one generation run: the selected `LEVEL_CONFIG` preset
(course target, student range, team bounds) plus the `--semester` and
`--year` options. -/
structure Params where
  courses : ℕ
  studentsMin : ℕ
  studentsMax : ℕ
  teamMin : ℕ
  teamMax : ℕ
  semester : String
  yearOpt : ℕ
deriving DecidableEq, Repr, Inhabited

/-- Generation-state: the rng call counter and the per-table primary-key
counters of the store (fresh sequences start at 0; rows get counter + 1). -/
structure GenSt where
  ctr : ℕ
  userN : ℕ
  courseN : ℕ
  cmN : ℕ
  teamN : ℕ
  tmN : ℕ
  assN : ℕ
  qN : ℕ
  respN : ℕ
deriving DecidableEq, Repr, Inhabited

/-- One generated team with its membership chunk and rows. -/
structure TeamData where
  team : TeamM
  members : List CourseMemberM
  tms : List TeamMemberM
  responses : List ResponseM
deriving DecidableEq, Repr, Inhabited

/-- Everything one iteration of the course loop creates. -/
structure CourseData where
  teacher : UserM
  course : CourseM
  students : List UserM
  members : List CourseMemberM
  teams : List TeamData
  assessment : AssessmentM
  questions : List QuestionM
deriving DecidableEq, Repr, Inhabited

/-- Python `f"{n:02d}"`. -/
def pad2 (n : ℕ) : String :=
  if n < 10 then "0" ++ toString n else toString n

/-- The five fixed `likert_prompts` (lines 224-230). -/
def likertPrompts : List String :=
  ["Contributed fair share", "Communicated effectively", "Met deadlines",
   "Showed leadership", "Quality of work"]

/-- The `AssessmentQuestion` rows bulk-created for one assessment
(lines 231-237); ids continue the table's sequence in list order. -/
def questionRows (aid qBase : ℕ) : List QuestionM :=
  likertPrompts.enum.map fun pr => ⟨qBase + 1 + pr.1, aid, "likert", pr.2⟩

/-- The team creation and chunk assignment (lines 184-201): one `Team` per
size, then `members[pos:pos+sz]` becomes that team's chunk of `TeamMember`
rows.  Returns the per-team data plus the advanced team / team-member id
counters. -/
def buildTeams (cid : ℕ) :
    List ℕ → List CourseMemberM → ℕ → ℕ → ℕ →
    List (TeamM × List CourseMemberM × List TeamMemberM) × ℕ × ℕ
  | [], _, teamN, tmN, _ => ([], teamN, tmN)
  | sz :: rest, ms, teamN, tmN, tnum =>
    let team : TeamM := ⟨teamN + 1, cid, "Team " ++ pad2 tnum⟩
    let chunk := ms.take sz
    let tms : List TeamMemberM := chunk.enum.map fun pr =>
      ⟨tmN + 1 + pr.1, team.id, pr.2.id⟩
    let r := buildTeams cid rest (ms.drop sz) (team.id) (tmN + chunk.length) (tnum + 1)
    ((team, chunk, tms) :: r.1, r.2)

/-- The `answers` mapping of one response (lines 259-261): one
`biased_score(rng, 5)` draw per question of the assessment, in question
order.  Returns the mapping and the advanced rng counter. -/
def answersFor (rng : Rng) : List QuestionM → ℕ → List (ℕ × ℤ) × ℕ
  | [], c => ([], c)
  | q :: qs, c =>
    let rest := answersFor rng qs (c + 1)
    ((q.id, biased_score (rng.tri c) 5) :: rest.1, rest.2)

/-- Inner loop `for j, cm_j in enumerate(cms)` of the response fan-out
(lines 256-270) for a fixed rater at index `i`: every index `j ≠ i` yields
one submitted `AssessmentResponse` from `cms[i]` to `cms[j]`.  State is
(rng counter, response id counter). -/
def respJ (aid : ℕ) (qs : List QuestionM) (rng : Rng)
    (cms : List CourseMemberM) (cmi : CourseMemberM) (i : ℕ) :
    List ℕ → ℕ → ℕ → List ResponseM × ℕ × ℕ
  | [], c, r => ([], c, r)
  | j :: js, c, r =>
    if i = j then respJ aid qs rng cms cmi i js c r
    else
      let ans := answersFor rng qs c
      let resp : ResponseM :=
        ⟨r + 1, aid, cmi.userId, (cms.getD j default).userId, ans.1, true⟩
      let rest := respJ aid qs rng cms cmi i js ans.2 (r + 1)
      (resp :: rest.1, rest.2)

/-- Outer loop `for i, cm_i in enumerate(cms)` of the response fan-out. -/
def respI (aid : ℕ) (qs : List QuestionM) (rng : Rng) (cms : List CourseMemberM) :
    List ℕ → ℕ → ℕ → List ResponseM × ℕ × ℕ
  | [], c, r => ([], c, r)
  | i :: is, c, r =>
    let blk := respJ aid qs rng cms (cms.getD i default) i (List.range cms.length) c r
    let rest := respI aid qs rng cms is blk.2.1 blk.2.2
    (blk.1 ++ rest.1, rest.2)

/-- All responses of one team (lines 253-270): every ordered pair of distinct
member indices, rater evaluating ratee, one score per question. -/
def teamResponses (aid : ℕ) (qs : List QuestionM) (rng : Rng)
    (cms : List CourseMemberM) (c r : ℕ) : List ResponseM × ℕ × ℕ :=
  respI aid qs rng cms (List.range cms.length) c r

/-- Walk the `by_team` groups in team order, generating each team's
responses (the dict iteration of line 253 follows `team_id` order, which is
creation order). -/
def attachResponses (aid : ℕ) (qs : List QuestionM) (rng : Rng) :
    List (TeamM × List CourseMemberM × List TeamMemberM) → ℕ → ℕ →
    List TeamData × ℕ × ℕ
  | [], c, r => ([], c, r)
  | t :: ts, c, r =>
    let tr := teamResponses aid qs rng t.2.1 c r
    let rest := attachResponses aid qs rng ts tr.2.1 tr.2.2
    (⟨t.1, t.2.1, t.2.2, tr.1⟩ :: rest.1, rest.2)

/-- One iteration of the `for idx in range(courses_target)` loop of
`Command.handle` (lines 132-271): teacher, course, students (re-read in email
order), memberships, the team partition of the shuffled memberships, the
published assessment with the fixed October window of wall-clock year `wy`,
the five questions, and the all-pairs peer responses.  `none` propagates the
partition's `AssertionError`, which aborts the run. -/
def genCourse (p : Params) (rng : Rng) (wy idx : ℕ) (st : GenSt) :
    Option (CourseData × GenSt) :=
  let teacher : UserM :=
    ⟨st.userN + 1, "teacher+" ++ toString (idx + 1) ++ "@faculty.example.edu",
     "Prof " ++ toString (idx + 1), "teacher"⟩
  let courseNumber := "CS" ++ toString (1000 + idx)
  let course : CourseM :=
    ⟨st.courseN + 1, courseNumber, "Course " ++ courseNumber, p.semester,
     toString p.yearOpt, teacher.id⟩
  let numStudents := rng.nat st.ctr p.studentsMin p.studentsMax
  let c1 := st.ctr + 1
  let students : List UserM := (List.range numStudents).map fun j =>
    ⟨st.userN + 2 + j,
     "student+" ++ courseNumber ++ "-" ++ toString (j + 1) ++ "@student.example.edu",
     "Student " ++ courseNumber ++ "-" ++ toString (j + 1), "student"⟩
  let studentsSorted :=
    students.insertionSort fun a b => ¬ charListLt b.email.data a.email.data
  let members : List CourseMemberM := studentsSorted.enum.map fun pr =>
    ⟨st.cmN + 1 + pr.1, course.id, pr.2.id⟩
  (partition_into_teams numStudents p.teamMin p.teamMax rng.shuf c1).map fun pr =>
    let sizes := pr.1
    let c2 := pr.2
    let shuffled := permuteBy (rng.shuf c2 members.length) members
    let c3 := c2 + 1
    let bt := buildTeams course.id sizes shuffled st.teamN st.tmN 1
    let assess : AssessmentM :=
      ⟨st.assN + 1, course.id, courseNumber ++ " – Peer Review 1", "published",
       ⟨wy, 10, 1, 9, 0⟩, ⟨wy, 10, 31, 23, 59⟩, false⟩
    let questions := questionRows assess.id st.qN
    let ar := attachResponses assess.id questions rng bt.1 c3 st.respN
    (⟨teacher, course, studentsSorted, members, ar.1, assess, questions⟩,
     ⟨ar.2.1, st.userN + 1 + numStudents, st.courseN + 1, st.cmN + numStudents,
      bt.2.1, bt.2.2, st.assN + 1, st.qN + 5, ar.2.2⟩)

/-- The course loop: `count` remaining iterations starting at index `idx`. -/
def runCourses (p : Params) (rng : Rng) (wy : ℕ) :
    ℕ → ℕ → GenSt → Option (List CourseData × GenSt)
  | 0, _, st => some ([], st)
  | count + 1, idx, st =>
    match genCourse p rng wy idx st with
    | none => none
    | some (cd, st') =>
      match runCourses p rng wy count (idx + 1) st' with
      | none => none
      | some (cds, st'') => some (cd :: cds, st'')

/-- The initial state of a run against a fresh (or purged) store. -/
def initSt : GenSt := ⟨0, 0, 0, 0, 0, 0, 0, 0, 0⟩

/-- One full generation run (the body of the `transaction.atomic()` block,
lines 131-277) for wall-clock year `wy`: `none` models an exception escaping
the block. -/
def runModel (p : Params) (rng : Rng) (wy : ℕ) : Option (List CourseData) :=
  (runCourses p rng wy p.courses 0 initSt).map (·.1)

/-- Python `str` of a boolean. -/
def pyStr (b : Bool) : String :=
  if b then "True" else "False"

/-- `datetime.isoformat()` of the stored timestamps (UTC-offset suffix of the
attached timezone omitted; no claim inspects it). -/
def isoOf (d : DateTimeM) : String :=
  toString d.year ++ "-" ++ pad2 d.month ++ "-" ++ pad2 d.day ++ "T" ++
    pad2 d.hour ++ ":" ++ pad2 d.minute ++ ":00"

/-- `json.dumps` of an answers mapping. -/
def answersJson (ans : List (ℕ × ℤ)) : String :=
  "\x7b" ++ String.intercalate ", "
    (ans.map fun kv => "\x22" ++ toString kv.1 ++ "\x22: " ++ toString kv.2) ++ "\x7d"

/-- The eight `csv_rows` buckets (lines 115-124), one inner list per data row. -/
structure CsvRows where
  users : List (List String)
  courses : List (List String)
  courseMembers : List (List String)
  teams : List (List String)
  teamMembers : List (List String)
  assessments : List (List String)
  assessmentQuestions : List (List String)
  assessmentResponses : List (List String)
deriving DecidableEq, Repr, Inhabited

/-- What the export path accumulates and writes for a successful run.
The `users` bucket receives one append per teacher (line 141) and none for
the bulk-created students; the `teams` bucket is initialized (line 119) but
never appended to — the loop over `teams` at lines 191-192 is empty — so
`teams.csv` is written with a header and no data rows.  The responses file is
filled from `AssessmentResponse.objects.all()` at export time (lines
295-298). -/
def csvRowsOf (cds : List CourseData) : CsvRows where
  users := cds.map fun cd =>
    [toString cd.teacher.id, cd.teacher.email, cd.teacher.name, cd.teacher.role]
  courses := cds.map fun cd =>
    [toString cd.course.id, cd.course.number, cd.course.name,
     cd.course.semester, cd.course.year, toString cd.course.teacherId]
  courseMembers := cds.flatMap fun cd => cd.members.map fun cm =>
    [toString cm.id, toString cm.courseId, toString cm.userId]
  teams := []
  teamMembers := cds.flatMap fun cd => cd.teams.flatMap fun td => td.tms.map fun tm =>
    [toString tm.id, toString tm.teamId, toString tm.courseMemberId]
  assessments := cds.map fun cd =>
    [toString cd.assessment.id, toString cd.assessment.courseId,
     cd.assessment.title, cd.assessment.status, isoOf cd.assessment.publishDate,
     isoOf cd.assessment.dueDate, pyStr cd.assessment.resultsReleased]
  assessmentQuestions := cds.flatMap fun cd => cd.questions.map fun q =>
    [toString q.id, toString q.assessmentId, q.questionType, q.content]
  assessmentResponses := cds.flatMap fun cd => cd.teams.flatMap fun td =>
    td.responses.map fun ar =>
      [toString ar.id, toString ar.assessmentId, toString ar.fromUserId,
       toString ar.toUserId, answersJson ar.answers, pyStr ar.submitted]

/-- The persistent store: one table per entity kind. -/
structure Db where
  users : List UserM
  courses : List CourseM
  courseMembers : List CourseMemberM
  teams : List TeamM
  teamMembers : List TeamMemberM
  assessments : List AssessmentM
  questions : List QuestionM
  responses : List ResponseM
deriving DecidableEq, Repr, Inhabited

/-- The store after `_purge` (lines 318-332): every table emptied. -/
def emptyDb : Db := ⟨[], [], [], [], [], [], [], []⟩

/-- The rows a successful run inserts, flattened per table. -/
def dbOfRun (cds : List CourseData) : Db where
  users := cds.flatMap fun cd => cd.teacher :: cd.students
  courses := cds.map (·.course)
  courseMembers := cds.flatMap (·.members)
  teams := cds.flatMap fun cd => cd.teams.map (·.team)
  teamMembers := cds.flatMap fun cd => cd.teams.flatMap (·.tms)
  assessments := cds.map (·.assessment)
  questions := cds.flatMap (·.questions)
  responses := cds.flatMap fun cd => cd.teams.flatMap (·.responses)

/-- Append newly inserted rows to the prior store. -/
def appendDb (a b : Db) : Db :=
  ⟨a.users ++ b.users, a.courses ++ b.courses, a.courseMembers ++ b.courseMembers,
   a.teams ++ b.teams, a.teamMembers ++ b.teamMembers,
   a.assessments ++ b.assessments, a.questions ++ b.questions,
   a.responses ++ b.responses⟩

/-- Modelled from the spec: the course loop runs inside one
`transaction.atomic()` block (line 131), whose all-or-nothing semantics are
supplied by the web framework rather than by code under `src/` — "any failure
anywhere aborts the whole run and leaves prior state untouched".  A
successful body commits its inserts; an exception escaping the body rolls
every insert of the block back, leaving the store as it was when the block
began. -/
def atomicRun (db : Db) (out : Option (List CourseData)) : Db :=
  match out with
  | some cds => appendDb db (dbOfRun cds)
  | none => db

/-- `Command.handle` (lines 100-316) as a store transformer: the optional
purge happens before — and outside — the transaction boundary, then the
atomic generation run.  (CSV export happens after the block and writes no
store rows.) -/
def handleModel (p : Params) (purge : Bool) (rng : Rng) (wy : ℕ) (db0 : Db) : Db :=
  let db1 := if purge then emptyDb else db0
  atomicRun db1 (runModel p rng wy)

/-- A concrete generator state: `randint` answers its lower bound, `shuffle`
leaves lists in order, `triangular` draws 4.  Every one of these outcomes has
positive probability for `random.Random`, so this is a reachable behaviour
of a seeded generator. -/
def idRng : Rng := ⟨fun _ lo _ => lo, fun _ len => List.range len, fun _ => 4⟩

/-- A small run configuration: one course of exactly two students with team
bounds 4..8 (the generator is specified over arbitrary course counts,
student ranges and team bounds; the level presets are three such choices). -/
def pSmall : Params := ⟨1, 2, 2, 4, 8, "Spring", 2025⟩

/-- A configuration on which the partitioner's internal assertion fires:
one course of exactly seven students with team bounds 4..6. -/
def pFail : Params := ⟨1, 7, 7, 4, 6, "Spring", 2025⟩

/-- A nonempty prior store (one pre-existing user). -/
def dbPrior : Db :=
  ⟨[⟨1, "existing@example.edu", "Existing", "teacher"⟩], [], [], [], [], [], [], []⟩

/-- The randomness-determined part of one course's output: its team-size
sequence and, per team, every response's (rater, ratee, answers) triple. -/
def scoreView (cd : CourseData) :
    List ℕ × List (List (ℕ × ℕ × List (ℕ × ℤ))) :=
  (cd.teams.map fun td => td.members.length,
   cd.teams.map fun td => td.responses.map fun r =>
     (r.fromUserId, r.toUserId, r.answers))

end SeedData

namespace SeedData

/-! ## Sanity checks of the embedding against the source's behaviour -/

example : partition_into_teams 0 4 8 shId 0 = some ([], 0) := by decide

example : partition_into_teams 2 4 8 shId 0 = some ([2], 0) := by decide

example : partition_into_teams 8 4 8 shId 0 = some ([8], 4) := by decide

example : (partition_into_teams 30 4 8 shId 0).map (·.1) = some [6, 6, 6, 6, 6] := by decide

example : (partition_into_teams 9 4 6 shId 0).map (·.1) = some [5, 4] := by decide

example : (partition_into_teams 13 4 6 shId 0).map (·.1) = some [5, 4, 4] := by decide

example : partition_into_teams 6 4 4 shId 0 = none := by decide

/-! ## Claims -/

/-- **C1** (code bug).  The claim states that for every `n ≥ 0` and
`1 ≤ min_size ≤ max_size` the partitioner returns sizes summing to `n`.  On
`n = 7, min_size = 4, max_size = 6` the algorithm reaches the overshoot
correction with sizes `[6, 4]` and overflow `3`, can only take back `2`
units without dropping a team below `min_size`, leaves `[4, 4]` (sum `8`),
and therefore fails its own `assert sum(sizes) == num_students`: it raises
`AssertionError` instead of returning.  The only generator calls on this
trace are shuffles of the singleton `[0]`, so every generator state takes it. -/
theorem partition_sum_assertion_fires :
    partitionCore 7 4 6 shId 0 = some ([4, 4], 3) ∧
    partition_into_teams 7 4 6 shId 0 = none :=
  ⟨by decide, by decide⟩

/-- **C9** (confirmed).  For `n = 0` the partitioner returns the empty
sequence, and for `0 < n < min_size` it returns exactly `[n]`, for every
shuffle oracle and counter (no random call is made on these paths). -/
theorem partition_small_roster (minT maxT : ℕ) (sh : ℕ → ℕ → List ℕ) (c0 : ℕ) :
    partition_into_teams 0 minT maxT sh c0 = some ([], c0) ∧
    ∀ n, 0 < n → n < minT → partition_into_teams n minT maxT sh c0 = some ([n], c0) := by
  constructor
  · simp [partition_into_teams, partitionCore]
  · intro n hn hlt
    unfold partition_into_teams partitionCore
    rw [if_neg (by omega), if_pos hlt]
    simp

/-- Witness for C9 at `n = 2`, bounds `4..8`. -/
theorem partition_small_roster_witness :
    partition_into_teams 0 4 8 shId 0 = some ([], 0) ∧
    (0 < 2 ∧ 2 < 4 ∧ partition_into_teams 2 4 8 shId 0 = some ([2], 0)) :=
  ⟨(partition_small_roster 4 8 shId 0).1,
   by decide, by decide, (partition_small_roster 4 8 shId 0).2 2 (by decide) (by decide)⟩

/-- **C8** (confirmed).  For every `max_score ≥ 1` and every value the
triangular draw can produce, `biased_score` (round half to even, then clamp)
lands in `[1, max_score]`. -/
theorem biased_score_in_range (a : ℚ) (m : ℤ) (hm : 1 ≤ m) :
    1 ≤ biased_score a m ∧ biased_score a m ≤ m := by
  unfold biased_score
  exact ⟨le_max_left 1 _, max_le hm (min_le_of_left_le (le_refl m))⟩

/-- Witness for C8 at the draw `4` and `max_score = 5`. -/
theorem biased_score_in_range_witness :
    (1 : ℤ) ≤ 5 ∧ 1 ≤ biased_score 4 5 ∧ biased_score 4 5 ≤ 5 :=
  ⟨by decide, biased_score_in_range 4 5 (by decide)⟩

/-- **C7** (confirmed, transaction semantics modelled from the spec).  When
not purging, a failure anywhere inside the generation run leaves the prior
store untouched: the run body sits inside one `transaction.atomic()` block,
so its rollback discards every insert of the run. -/
theorem handle_rollback_on_failure (p : Params) (rng : Rng) (wy : ℕ) (db0 : Db)
    (hfail : runModel p rng wy = none) :
    handleModel p false rng wy db0 = db0 := by
  simp [handleModel, atomicRun, hfail]

/-- Witness for C7: the partition assertion failure on `pFail` aborts the
run and the prior store survives unchanged. -/
theorem handle_rollback_on_failure_witness :
    runModel pFail idRng 2025 = none ∧
    handleModel pFail false idRng 2025 dbPrior = dbPrior :=
  ⟨by decide, handle_rollback_on_failure pFail idRng 2025 dbPrior (by decide)⟩

/-- Whatever bounds hold of every team size keep holding through one
distribution pass: a team is only incremented while strictly below the
maximum. -/
theorem innerPass_bounds {n maxT minT : ℕ} :
    ∀ idxs sizes assigned, (∀ s ∈ sizes, minT ≤ s ∧ s ≤ maxT) →
      ∀ s ∈ (innerPass n maxT idxs sizes assigned).1, minT ≤ s ∧ s ≤ maxT := by
  intro idxs
  induction idxs with
  | nil => intro sizes assigned h; simpa [innerPass] using h
  | cons i rest ih =>
    intro sizes assigned h
    simp only [innerPass]
    cases hv : sizes[i]? with
    | none => exact ih sizes assigned h
    | some v =>
      dsimp only
      by_cases hc : v < maxT ∧ assigned < n
      · rw [if_pos hc]
        refine ih _ _ ?_
        intro s hs
        rcases List.mem_or_eq_of_mem_set hs with hmem | hEq
        · exact h s hmem
        · have hvmem := h v (List.getElem?_mem hv)
          subst hEq
          exact ⟨by omega, by omega⟩
      · rw [if_neg hc]
        exact ih sizes assigned h

/-- The size bounds are preserved by the whole surplus-distribution loop:
appended fallback teams are clamped into `[minT, maxT]`. -/
theorem outerLoop_bounds {n minT maxT : ℕ} {sh : ℕ → ℕ → List ℕ} (hmm : minT ≤ maxT) :
    ∀ fuel sizes assigned c res,
      (∀ s ∈ sizes, minT ≤ s ∧ s ≤ maxT) →
      outerLoop n minT maxT sh fuel sizes assigned c = some res →
      ∀ s ∈ res.1, minT ≤ s ∧ s ≤ maxT := by
  intro fuel
  induction fuel with
  | zero =>
    intro sizes assigned c res h hres
    simp only [outerLoop] at hres
    split at hres
    · exact absurd hres (by simp)
    · cases hres
      exact h
  | succ k ih =>
    intro sizes assigned c res h hres
    simp only [outerLoop] at hres
    split at hres
    case isTrue hlt =>
      set step := innerPass n maxT (sh c sizes.length) sizes assigned with hstep
      have hstepb : ∀ s ∈ step.1, minT ≤ s ∧ s ≤ maxT :=
        innerPass_bounds (sh c sizes.length) sizes assigned h
      by_cases hp : step.2.2
      · rw [if_pos hp] at hres
        exact ih step.1 step.2.1 (c + 1) res hstepb hres
      · rw [if_neg hp] at hres
        by_cases hr : n - step.2.1 = 0
        · rw [if_pos hr] at hres
          cases hres
          exact hstepb
        · rw [if_neg hr] at hres
          refine ih _ _ (c + 1) res ?_ hres
          intro s hs
          rcases List.mem_append.1 hs with hmem | hmem
          · exact hstepb s hmem
          · have : s = min (max (n - step.2.1) minT) maxT := by simpa using hmem
            subst this
            constructor
            · exact le_min (le_trans (le_max_right _ _) (le_refl _)) hmm
            · exact min_le_right _ _
    case isFalse =>
      cases hres
      exact h

/-- The size bounds are preserved by the overshoot correction: each team
gives back at most what it holds above `minT`. -/
theorem removeOverflow_bounds {minT maxT : ℕ} :
    ∀ sizes ov, (∀ s ∈ sizes, minT ≤ s ∧ s ≤ maxT) →
      ∀ s ∈ (removeOverflow minT sizes ov).1, minT ≤ s ∧ s ≤ maxT := by
  intro sizes
  induction sizes with
  | nil => intro ov h s hs; simp [removeOverflow] at hs
  | cons a rest ih =>
    intro ov h s hs
    simp only [removeOverflow] at hs
    rcases List.mem_cons.1 hs with hEq | hmem
    · have ha := h a (List.mem_cons_self a rest)
      have htake : min (removeOverflow minT rest ov).2 (a - minT) ≤ a - minT :=
        min_le_right _ _
      subst hEq
      exact ⟨by omega, by omega⟩
    · exact ih ov (fun x hx => h x (List.mem_cons_of_mem a hx)) s hmem

/-- The partitioner returns a value exactly when the pre-assertion
computation produces it and it passes the sum assertion. -/
theorem partition_into_teams_eq_some {n minT maxT : ℕ} {sh : ℕ → ℕ → List ℕ}
    {c0 : ℕ} {res : List ℕ × ℕ} :
    partition_into_teams n minT maxT sh c0 = some res ↔
      partitionCore n minT maxT sh c0 = some res ∧ res.1.sum = n := by
  unfold partition_into_teams
  cases hc : partitionCore n minT maxT sh c0 with
  | none => simp
  | some pr =>
    obtain ⟨sizes, c1⟩ := pr
    simp only
    split_ifs with hs
    · constructor
      · intro h
        cases h
        exact ⟨rfl, hs⟩
      · intro h
        obtain ⟨h, -⟩ := h
        cases h
        rfl
    · constructor
      · intro h
        exact absurd h (by simp)
      · intro h
        obtain ⟨h, hsum⟩ := h
        cases h
        exact absurd hsum hs

/-- The sizes a successful partition returns sum exactly to `n` (this is the
source's final assertion). -/
theorem partition_sum {n minT maxT : ℕ} {sh : ℕ → ℕ → List ℕ} {c0 : ℕ}
    {res : List ℕ × ℕ} (h : partition_into_teams n minT maxT sh c0 = some res) :
    res.1.sum = n :=
  (partition_into_teams_eq_some.1 h).2

/-- **C2** (confirmed).  For every `n ≥ min_size` and `1 ≤ min_size ≤
max_size`, every size the partitioner returns lies in
`[min_size, max_size]`, for every shuffle oracle and counter. -/
theorem partition_sizes_in_bounds (n minT maxT : ℕ) (sh : ℕ → ℕ → List ℕ) (c0 : ℕ)
    (res : List ℕ × ℕ)
    (h1 : 1 ≤ minT) (h2 : minT ≤ maxT) (h3 : minT ≤ n)
    (hres : partition_into_teams n minT maxT sh c0 = some res) :
    ∀ s ∈ res.1, minT ≤ s ∧ s ≤ maxT := by
  have hc := (partition_into_teams_eq_some.1 hres).1
  unfold partitionCore at hc
  rw [if_neg (by omega), if_neg (by omega)] at hc
  dsimp only at hc
  set tc := max (max 1 (n / maxT)) (max 1 (pyRoundDiv (2 * n) (minT + maxT))) with htc
  cases ho : outerLoop n minT maxT sh (n + 1) (List.replicate tc minT) (minT * tc) c0 with
  | none =>
    rw [ho] at hc
    exact absurd hc (by simp)
  | some triple =>
    rw [ho] at hc
    have hinit : ∀ s ∈ List.replicate tc minT, minT ≤ s ∧ s ≤ maxT := by
      intro s hs
      rcases List.mem_replicate.1 hs with ⟨-, hEq⟩
      subst hEq
      exact ⟨le_refl _, h2⟩
    have hloop := outerLoop_bounds h2 (n + 1) (List.replicate tc minT) (minT * tc) c0
      triple hinit ho
    obtain ⟨sizes, assigned, c1⟩ := triple
    simp only at hc
    cases hc
    by_cases hover : n < assigned
    · rw [if_pos hover]
      exact removeOverflow_bounds sizes (assigned - n) hloop
    · rw [if_neg hover]
      exact hloop

/-- Witness for C2 on `partition_into_teams 8 4 8`, which returns `[8]`. -/
theorem partition_sizes_in_bounds_witness :
    partition_into_teams 8 4 8 shId 0 = some ([8], 4) ∧ (4 ≤ 8 ∧ 8 ≤ 8) :=
  ⟨by decide,
   partition_sizes_in_bounds 8 4 8 shId 0 ([8], 4)
     (by decide) (by decide) (by decide) (by decide) 8 (by decide)⟩

/-- Lift a per-course property of `genCourse` over the course loop. -/
theorem runCourses_forall {p : Params} {rng : Rng} {wy : ℕ} {P : CourseData → Prop}
    (hgen : ∀ idx st cd st', genCourse p rng wy idx st = some (cd, st') → P cd) :
    ∀ count idx st out, runCourses p rng wy count idx st = some out →
      ∀ cd ∈ out.1, P cd := by
  intro count
  induction count with
  | zero =>
    intro idx st out h cd hcd
    simp only [runCourses] at h
    cases h
    simp at hcd
  | succ k ih =>
    intro idx st out h cd hcd
    simp only [runCourses] at h
    cases hg : genCourse p rng wy idx st with
    | none =>
      rw [hg] at h
      exact absurd h (by simp)
    | some pr =>
      rw [hg] at h
      obtain ⟨cd1, st1⟩ := pr
      dsimp only at h
      cases hr : runCourses p rng wy k (idx + 1) st1 with
      | none =>
        rw [hr] at h
        exact absurd h (by simp)
      | some out1 =>
        rw [hr] at h
        obtain ⟨cds1, st2⟩ := out1
        dsimp only at h
        cases h
        rcases List.mem_cons.1 hcd with hEq | hmem
        · subst hEq
          exact hgen idx st cd st1 hg
        · exact ih (idx + 1) st1 (cds1, st2) hr cd hmem

/-- Lift a per-course property of `genCourse` over a whole run. -/
theorem runModel_forall {p : Params} {rng : Rng} {wy : ℕ} {cds : List CourseData}
    {P : CourseData → Prop}
    (hgen : ∀ idx st cd st', genCourse p rng wy idx st = some (cd, st') → P cd)
    (hrun : runModel p rng wy = some cds) : ∀ cd ∈ cds, P cd := by
  unfold runModel at hrun
  cases hr : runCourses p rng wy p.courses 0 initSt with
  | none =>
    rw [hr] at hrun
    exact absurd hrun (by simp)
  | some out =>
    rw [hr] at hrun
    simp only [Option.map_some'] at hrun
    cases hrun
    exact runCourses_forall hgen p.courses 0 initSt out hr

/-- Every assessment a course iteration creates carries the fixed October
window of the wall-clock year, and the course row carries the `--year`
label. -/
theorem genCourse_dates {p : Params} {rng : Rng} {wy idx : ℕ} {st st' : GenSt}
    {cd : CourseData} (h : genCourse p rng wy idx st = some (cd, st')) :
    cd.assessment.publishDate = ⟨wy, 10, 1, 9, 0⟩ ∧
      cd.assessment.dueDate = ⟨wy, 10, 31, 23, 59⟩ ∧
      cd.course.year = toString p.yearOpt := by
  unfold genCourse at h
  dsimp only at h
  rw [Option.map_eq_some'] at h
  obtain ⟨pr, hpr, hf⟩ := h
  have h1 := congrArg Prod.fst hf
  subst h1
  exact ⟨rfl, rfl, rfl⟩

/-- **C10** (confirmed).  Every generated assessment opens October 1, 09:00
and closes October 31, 23:59 of the wall-clock year at command time; the
`--year` option only reaches the stored course-year label. -/
theorem assessment_window_wall_clock (p : Params) (rng : Rng) (wy : ℕ)
    (cds : List CourseData) (hrun : runModel p rng wy = some cds) :
    ∀ cd ∈ cds, cd.assessment.publishDate = ⟨wy, 10, 1, 9, 0⟩ ∧
      cd.assessment.dueDate = ⟨wy, 10, 31, 23, 59⟩ ∧
      cd.course.year = toString p.yearOpt :=
  runModel_forall (fun _ _ _ _ h => genCourse_dates h) hrun

/-- Witness for C10: a run in wall-clock year 2031 with `--year 2025` dates
its assessment in October 2031 while the course is labelled "2025". -/
theorem assessment_window_wall_clock_witness :
    (((runModel pSmall idRng 2031).getD []).headD default).assessment.publishDate
        = ⟨2031, 10, 1, 9, 0⟩ ∧
      (((runModel pSmall idRng 2031).getD []).headD default).assessment.dueDate
        = ⟨2031, 10, 31, 23, 59⟩ ∧
      (((runModel pSmall idRng 2031).getD []).headD default).course.year
        = toString pSmall.yearOpt :=
  assessment_window_wall_clock pSmall idRng 2031
    ((runModel pSmall idRng 2031).getD []) (by decide)
    (((runModel pSmall idRng 2031).getD []).headD default) (by decide)

/-- One course iteration consumes the generator identically and produces the
same team sizes and responses regardless of the wall-clock year (which only
enters the assessment's window). -/
theorem genCourse_wall_clock_free (p : Params) (rng : Rng) (wy1 wy2 idx : ℕ)
    (st : GenSt) :
    (genCourse p rng wy1 idx st).map (fun x => (scoreView x.1, x.2)) =
      (genCourse p rng wy2 idx st).map (fun x => (scoreView x.1, x.2)) := by
  unfold genCourse
  dsimp only
  rw [Option.map_map, Option.map_map]
  rfl

/-- The whole course loop consumes the generator identically and produces
the same size/score projection regardless of the wall-clock year. -/
theorem runCourses_wall_clock_free (p : Params) (rng : Rng) (wy1 wy2 : ℕ) :
    ∀ count idx st,
      (runCourses p rng wy1 count idx st).map (fun x => (x.1.map scoreView, x.2)) =
        (runCourses p rng wy2 count idx st).map (fun x => (x.1.map scoreView, x.2)) := by
  intro count
  induction count with
  | zero => intro idx st; simp [runCourses]
  | succ k ih =>
    intro idx st
    simp only [runCourses]
    have hg := genCourse_wall_clock_free p rng wy1 wy2 idx st
    cases h1 : genCourse p rng wy1 idx st with
    | none =>
      cases h2 : genCourse p rng wy2 idx st with
      | none => simp
      | some pr2 =>
        rw [h1, h2] at hg
        exact absurd hg (by simp)
    | some pr1 =>
      cases h2 : genCourse p rng wy2 idx st with
      | none =>
        rw [h1, h2] at hg
        exact absurd hg (by simp)
      | some pr2 =>
        rw [h1, h2] at hg
        obtain ⟨cd1, st1⟩ := pr1
        obtain ⟨cd2, st2⟩ := pr2
        simp only [Option.map_some', Option.some.injEq, Prod.mk.injEq] at hg
        obtain ⟨hsv, hst⟩ := hg
        subst hst
        dsimp only
        have ihh := ih (idx + 1) st1
        cases hr1 : runCourses p rng wy1 k (idx + 1) st1 with
        | none =>
          cases hr2 : runCourses p rng wy2 k (idx + 1) st1 with
          | none => simp
          | some out2 =>
            rw [hr1, hr2] at ihh
            exact absurd ihh (by simp)
        | some out1 =>
          cases hr2 : runCourses p rng wy2 k (idx + 1) st1 with
          | none =>
            rw [hr1, hr2] at ihh
            exact absurd ihh (by simp)
          | some out2 =>
            rw [hr1, hr2] at ihh
            obtain ⟨cds1, st1'⟩ := out1
            obtain ⟨cds2, st2'⟩ := out2
            simp only [Option.map_some', Option.some.injEq, Prod.mk.injEq] at ihh
            obtain ⟨hcds, hst'⟩ := ihh
            simp only [Option.map_some', Option.some.injEq, Prod.mk.injEq,
              List.map_cons, List.cons.injEq]
            exact ⟨⟨hsv, hcds⟩, hst'⟩

/-- **C6** (confirmed).  Two runs with the same seed (hence the same
generator value stream) and the same inputs produce the same team-size
sequences per course and the same (rater, ratee, answers) data for every
response, even if the wall-clock year at command time differs; with equal
wall-clock years the full outputs coincide definitionally. -/
theorem run_deterministic (p : Params) (rng : Rng) (wy1 wy2 : ℕ) :
    (runModel p rng wy1).map (List.map scoreView) =
      (runModel p rng wy2).map (List.map scoreView) := by
  unfold runModel
  have h := runCourses_wall_clock_free p rng wy1 wy2 p.courses 0 initSt
  have h2 := congrArg (Option.map Prod.fst) h
  rw [Option.map_map, Option.map_map] at h2
  rw [Option.map_map, Option.map_map]
  exact h2

/-- Looking every index of a list up in order returns the list. -/
theorem range_filterMap_getElem (l : List α) :
    (List.range l.length).filterMap (fun i => l[i]?) = l := by
  induction l with
  | nil => rfl
  | cons a t ih =>
    rw [List.length_cons, List.range_succ_eq_map, List.filterMap_cons]
    simp only [List.getElem?_cons_zero, List.filterMap_map, Function.comp_def,
      List.getElem?_cons_succ]
    rw [ih]

/-- Applying a valid shuffle permutes the list. -/
theorem permuteBy_perm {idxs : List ℕ} {l : List α}
    (h : idxs.Perm (List.range l.length)) : (permuteBy idxs l).Perm l := by
  unfold permuteBy
  have := h.filterMap fun i => l[i]?
  rwa [range_filterMap_getElem] at this

/-- The member lists of the built teams are exactly the size-driven chunks,
so when the sizes sum to the member count, they concatenate back to the
shuffled member list: no membership is dropped or duplicated. -/
theorem buildTeams_flatten (cid : ℕ) :
    ∀ (sizes : List ℕ) (ms : List CourseMemberM) (teamN tmN tnum : ℕ),
      sizes.sum = ms.length →
      ((buildTeams cid sizes ms teamN tmN tnum).1.map fun t => t.2.1).flatten = ms := by
  intro sizes
  induction sizes with
  | nil =>
    intro ms teamN tmN tnum h
    have hms : ms = [] := List.eq_nil_of_length_eq_zero (by simpa using h.symm)
    subst hms
    rfl
  | cons sz rest ih =>
    intro ms teamN tmN tnum h
    simp only [buildTeams, List.map_cons, List.flatten_cons]
    rw [ih (ms.drop sz) _ _ _ (by rw [List.length_drop]; simp only [List.sum_cons] at h; omega)]
    exact List.take_append_drop sz ms

/-- Attaching responses does not change the per-team member lists. -/
theorem attachResponses_members (aid : ℕ) (qs : List QuestionM) (rng : Rng) :
    ∀ (ts : List (TeamM × List CourseMemberM × List TeamMemberM)) (c r : ℕ),
      ((attachResponses aid qs rng ts c r).1.map fun td => td.members) =
        ts.map fun t => t.2.1 := by
  intro ts
  induction ts with
  | nil => intro c r; rfl
  | cons t rest ih =>
    intro c r
    simp only [attachResponses, List.map_cons]
    rw [ih]

/-- A list built by mapping an injective function of the position over an
enumeration has no duplicates. -/
theorem enum_map_nodup (l : List α) (g : ℕ × α → β) (f : ℕ → β)
    (hg : ∀ pr, g pr = f pr.1) (hf : Function.Injective f) :
    (l.enum.map g).Nodup := by
  have hcomp : l.enum.map g = (List.range l.length).map f := by
    rw [show g = f ∘ Prod.fst from funext fun pr => hg pr, ← List.map_map,
      List.enum_map_fst]
  rw [hcomp]
  exact (List.nodup_range _).map hf

/-- Counting a member across the size-driven chunks of a shuffled duplicate-
free member list yields exactly one occurrence. -/
theorem count_chunks_of_perm {sizes : List ℕ} {ms shuffled : List CourseMemberM}
    {cid teamN tmN tnum : ℕ}
    (hsp : shuffled.Perm ms) (hsum : sizes.sum = shuffled.length) (hnd : ms.Nodup) :
    ∀ cm ∈ ms,
      ((buildTeams cid sizes shuffled teamN tmN tnum).1.map fun t => t.2.1).flatten.count cm
        = 1 := by
  intro cm hcm
  rw [buildTeams_flatten cid sizes shuffled teamN tmN tnum hsum, hsp.count_eq cm]
  exact List.count_eq_one_of_mem hnd hcm

/-- Each course iteration assigns every membership of the course to exactly
one team: the concatenation of the team member lists counts each membership
once. -/
theorem genCourse_membership_partition {p : Params} {rng : Rng} {wy idx : ℕ}
    {st st' : GenSt} {cd : CourseData} (hperm : Rng.ShufValid rng)
    (h : genCourse p rng wy idx st = some (cd, st')) :
    ∀ cm ∈ cd.members, ((cd.teams.map fun td => td.members).flatten.count cm) = 1 := by
  unfold genCourse at h
  dsimp only at h
  rw [Option.map_eq_some'] at h
  obtain ⟨pr, hpr, hf⟩ := h
  have h1 := congrArg Prod.fst hf
  subst h1
  intro cm hcm
  dsimp only at hcm ⊢
  rw [attachResponses_members]
  refine count_chunks_of_perm (permuteBy_perm (hperm pr.2 _)) ?_ ?_ cm hcm
  · rw [(permuteBy_perm (hperm pr.2 _)).length_eq, List.length_map, List.enum_length,
      (List.perm_insertionSort _ _).length_eq, List.length_map, List.length_range]
    exact partition_sum hpr
  · refine List.Nodup.of_map (fun cmx => cmx.id) ?_
    rw [List.map_map]
    refine enum_map_nodup _ _ (fun i => st.cmN + 1 + i) (fun _ => rfl) ?_
    intro a b hab
    have hab' : st.cmN + 1 + a = st.cmN + 1 + b := hab
    omega

/-- **C5** (confirmed).  After a run, the memberships of each course are
partitioned across that course's teams: each membership lands in exactly one
team, for every valid shuffle oracle. -/
theorem memberships_partitioned (p : Params) (rng : Rng) (wy : ℕ)
    (cds : List CourseData) (hperm : Rng.ShufValid rng)
    (hrun : runModel p rng wy = some cds) :
    ∀ cd ∈ cds, ∀ cm ∈ cd.members,
      ((cd.teams.map fun td => td.members).flatten.count cm) = 1 :=
  runModel_forall (fun _ _ _ _ h => genCourse_membership_partition hperm h) hrun

/-- Witness for C5 on the small run: its single course has members, and the
first one lies in exactly one team chunk. -/
theorem memberships_partitioned_witness :
    ((((runModel pSmall idRng 2025).getD []).headD default).teams.map
        fun td => td.members).flatten.count
      ((((runModel pSmall idRng 2025).getD []).headD default).members.headD default) = 1 :=
  memberships_partitioned pSmall idRng 2025 ((runModel pSmall idRng 2025).getD [])
    (fun _ _ => List.Perm.refl _) (by decide)
    (((runModel pSmall idRng 2025).getD []).headD default) (by decide)
    ((((runModel pSmall idRng 2025).getD []).headD default).members.headD default)
    (by decide)

/-- The answers mapping carries exactly the question ids, in order. -/
theorem answersFor_map_fst (rng : Rng) :
    ∀ (qs : List QuestionM) (c : ℕ),
      ((answersFor rng qs c).1.map Prod.fst) = qs.map fun q => q.id := by
  intro qs
  induction qs with
  | nil => intro c; rfl
  | cons q qs ih =>
    intro c
    simp only [answersFor, List.map_cons]
    rw [ih]

/-- The inner rater loop emits one response per index other than the
rater's. -/
theorem respJ_length {aid : ℕ} {qs : List QuestionM} {rng : Rng}
    {cms : List CourseMemberM} {cmi : CourseMemberM} {i : ℕ} :
    ∀ (js : List ℕ) (c r : ℕ),
      (respJ aid qs rng cms cmi i js c r).1.length = js.length - js.count i := by
  intro js
  induction js with
  | nil => intro c r; rfl
  | cons j js ih =>
    intro c r
    simp only [respJ]
    by_cases hij : i = j
    · rw [if_pos hij]
      subst hij
      rw [ih, List.count_cons_self]
      have := List.count_le_length i js
      simp only [List.length_cons]
      omega
    · rw [if_neg hij]
      dsimp only
      rw [List.length_cons, List.length_cons, ih, List.count_cons_of_ne hij]
      have := List.count_le_length i js
      omega

/-- Every response the inner loop emits goes from the fixed rater to the
member at some other index, with a fresh answers mapping. -/
theorem respJ_mem {aid : ℕ} {qs : List QuestionM} {rng : Rng}
    {cms : List CourseMemberM} {cmi : CourseMemberM} {i : ℕ} :
    ∀ (js : List ℕ) (c r : ℕ) (x : ResponseM),
      x ∈ (respJ aid qs rng cms cmi i js c r).1 →
      ∃ j c'' r'', j ∈ js ∧ ¬ i = j ∧
        x = ⟨r'' + 1, aid, cmi.userId, (cms.getD j default).userId,
             (answersFor rng qs c'').1, true⟩ := by
  intro js
  induction js with
  | nil => intro c r x hx; simp [respJ] at hx
  | cons j js ih =>
    intro c r x hx
    simp only [respJ] at hx
    by_cases hij : i = j
    · rw [if_pos hij] at hx
      obtain ⟨j', c'', r'', hj', hij', hq⟩ := ih _ _ x hx
      exact ⟨j', c'', r'', List.mem_cons_of_mem j hj', hij', hq⟩
    · rw [if_neg hij] at hx
      rcases List.mem_cons.1 hx with hEq | hmem
      · exact ⟨j, c, r, List.mem_cons_self j js, hij, hEq⟩
      · obtain ⟨j', c'', r'', hj', hij', hq⟩ := ih _ _ x hmem
        exact ⟨j', c'', r'', List.mem_cons_of_mem j hj', hij', hq⟩

/-- The outer loop's output length: one block of `k - 1` responses per rater
index. -/
theorem respI_length {aid : ℕ} {qs : List QuestionM} {rng : Rng}
    {cms : List CourseMemberM} :
    ∀ (is : List ℕ) (c r : ℕ), (∀ i ∈ is, i < cms.length) →
      (respI aid qs rng cms is c r).1.length = is.length * (cms.length - 1) := by
  intro is
  induction is with
  | nil => intro c r h; simp [respI]
  | cons i is ih =>
    intro c r h
    simp only [respI, List.length_append]
    rw [respJ_length, ih _ _ (fun x hx => h x (List.mem_cons_of_mem i hx))]
    have hcount : (List.range cms.length).count i = 1 :=
      List.count_eq_one_of_mem (List.nodup_range _)
        (List.mem_range.2 (h i (List.mem_cons_self i is)))
    rw [hcount, List.length_range, List.length_cons, Nat.succ_mul]
    omega

/-- Every response of the outer loop comes from some rater index's inner
block. -/
theorem respI_mem {aid : ℕ} {qs : List QuestionM} {rng : Rng}
    {cms : List CourseMemberM} :
    ∀ (is : List ℕ) (c r : ℕ) (x : ResponseM),
      x ∈ (respI aid qs rng cms is c r).1 →
      ∃ i c' r', i ∈ is ∧
        x ∈ (respJ aid qs rng cms (cms.getD i default) i
              (List.range cms.length) c' r').1 := by
  intro is
  induction is with
  | nil => intro c r x hx; simp [respI] at hx
  | cons i is ih =>
    intro c r x hx
    simp only [respI] at hx
    rcases List.mem_append.1 hx with hmem | hmem
    · exact ⟨i, c, r, List.mem_cons_self i is, hmem⟩
    · obtain ⟨i', c', r', hi', hx'⟩ := ih _ _ x hmem
      exact ⟨i', c', r', List.mem_cons_of_mem i hi', hx'⟩

/-- One team's response block: exactly `k * (k - 1)` responses, none
self-directed, each answering every question — provided the team's member
user ids are duplicate-free. -/
theorem teamResponses_spec {aid : ℕ} {qs : List QuestionM} {rng : Rng}
    {cms : List CourseMemberM} (c r : ℕ)
    (hnd : (cms.map fun cm => cm.userId).Nodup) :
    (teamResponses aid qs rng cms c r).1.length = cms.length * (cms.length - 1) ∧
      ∀ x ∈ (teamResponses aid qs rng cms c r).1,
        x.fromUserId ≠ x.toUserId ∧
        x.answers.map Prod.fst = qs.map fun q => q.id := by
  constructor
  · unfold teamResponses
    rw [respI_length _ _ _ (fun i hi => List.mem_range.1 hi), List.length_range]
  · intro x hx
    unfold teamResponses at hx
    obtain ⟨i, c', r', hi_mem, hxJ⟩ := respI_mem _ _ _ x hx
    obtain ⟨j, c'', r'', hj_mem, hij, hxeq⟩ := respJ_mem _ _ _ x hxJ
    have hik : i < cms.length := List.mem_range.1 hi_mem
    have hjk : j < cms.length := List.mem_range.1 hj_mem
    subst hxeq
    constructor
    · dsimp only
      intro hEq
      rw [List.getD_eq_getElem cms default hik, List.getD_eq_getElem cms default hjk] at hEq
      apply hij
      have hik2 : i < (cms.map fun cm => cm.userId).length := by simpa using hik
      have hjk2 : j < (cms.map fun cm => cm.userId).length := by simpa using hjk
      have h1 : (cms.map fun cm => cm.userId)[i] = (cms.map fun cm => cm.userId)[j] := by
        rw [List.getElem_map, List.getElem_map]
        exact hEq
      exact hnd.getElem_inj_iff.1 h1
    · exact answersFor_map_fst rng qs c''

/-- Each built team's member user ids form a sublist of the pool's. -/
theorem buildTeams_userIds_sublist (cid : ℕ) :
    ∀ (sizes : List ℕ) (ms : List CourseMemberM) (teamN tmN tnum : ℕ) t,
      t ∈ (buildTeams cid sizes ms teamN tmN tnum).1 →
      (t.2.1.map fun cm => cm.userId).Sublist (ms.map fun cm => cm.userId) := by
  intro sizes
  induction sizes with
  | nil => intro ms teamN tmN tnum t ht; simp [buildTeams] at ht
  | cons sz rest ih =>
    intro ms teamN tmN tnum t ht
    simp only [buildTeams] at ht
    rcases List.mem_cons.1 ht with hEq | hmem
    · subst hEq
      dsimp only
      rw [List.map_take]
      exact List.take_sublist _ _
    · refine (ih (ms.drop sz) _ _ _ t hmem).trans ?_
      rw [List.map_drop]
      exact List.drop_sublist _ _

/-- Each produced team's data pairs the chunk it was built from with a
response block generated from exactly that chunk. -/
theorem attachResponses_team_mem {aid : ℕ} {qs : List QuestionM} {rng : Rng} :
    ∀ (ts : List (TeamM × List CourseMemberM × List TeamMemberM)) (c r : ℕ)
      (td : TeamData), td ∈ (attachResponses aid qs rng ts c r).1 →
      ∃ t, t ∈ ts ∧ ∃ c' r', td.members = t.2.1 ∧
        td.responses = (teamResponses aid qs rng t.2.1 c' r').1 := by
  intro ts
  induction ts with
  | nil => intro c r td htd; simp [attachResponses] at htd
  | cons t ts ih =>
    intro c r td htd
    simp only [attachResponses] at htd
    rcases List.mem_cons.1 htd with hEq | hmem
    · subst hEq
      exact ⟨t, List.mem_cons_self t ts, c, r, rfl, rfl⟩
    · obtain ⟨t', ht', c', r', h1, h2⟩ := ih _ _ td hmem
      exact ⟨t', List.mem_cons_of_mem t ht', c', r', h1, h2⟩

/-- Shuffling preserves duplicate-freeness of any projection. -/
theorem permuteBy_map_nodup {rng : Rng} (hperm : Rng.ShufValid rng) (c : ℕ)
    {l : List CourseMemberM} {f : CourseMemberM → ℕ} (h : (l.map f).Nodup) :
    ((permuteBy (rng.shuf c l.length) l).map f).Nodup :=
  ((permuteBy_perm (hperm c l.length)).map f).nodup_iff.2 h

/-- The generated course members carry pairwise distinct user ids (the
students' sequential primary keys survive the email re-sort). -/
theorem genMembers_userIds_nodup (n cmBase cid uBase : ℕ) (f : ℕ → UserM)
    (hfid : ∀ j, (f j).id = uBase + 2 + j)
    (r : UserM → UserM → Prop) [DecidableRel r] :
    (((((List.range n).map f).insertionSort r).enum.map fun pr =>
        (⟨cmBase + 1 + pr.1, cid, pr.2.id⟩ : CourseMemberM)).map
      fun cm => cm.userId).Nodup := by
  rw [List.map_map]
  have h1 : ((fun cm : CourseMemberM => cm.userId) ∘ fun pr : ℕ × UserM =>
      (⟨cmBase + 1 + pr.1, cid, pr.2.id⟩ : CourseMemberM)) =
      (fun s : UserM => s.id) ∘ Prod.snd := rfl
  rw [h1, ← List.map_map, List.enum_map_snd]
  refine ((List.perm_insertionSort r _).map fun s : UserM => s.id).nodup_iff.2 ?_
  rw [List.map_map]
  have h2 : (List.range n).map ((fun s : UserM => s.id) ∘ f) =
      (List.range n).map fun j => uBase + 2 + j :=
    List.map_congr_left fun a _ => hfid a
  rw [h2]
  refine (List.nodup_range n).map ?_
  intro a b hab
  have hab' : uBase + 2 + a = uBase + 2 + b := hab
  omega

/-- Each course iteration's teams carry complete all-pairs response blocks:
`k * (k - 1)` responses for a team of size `k`, none self-directed, each
answering every question of the course's assessment. -/
theorem genCourse_responses {p : Params} {rng : Rng} {wy idx : ℕ}
    {st st' : GenSt} {cd : CourseData} (hperm : Rng.ShufValid rng)
    (h : genCourse p rng wy idx st = some (cd, st')) :
    ∀ td ∈ cd.teams,
      td.responses.length = td.members.length * (td.members.length - 1) ∧
      ∀ x ∈ td.responses, x.fromUserId ≠ x.toUserId ∧
        x.answers.map Prod.fst = cd.questions.map fun q => q.id := by
  unfold genCourse at h
  dsimp only at h
  rw [Option.map_eq_some'] at h
  obtain ⟨pr, hpr, hf⟩ := h
  have h1 := congrArg Prod.fst hf
  subst h1
  intro td htd
  dsimp only at htd ⊢
  obtain ⟨t, ht_mem, c', r', hmem_eq, hresp_eq⟩ :=
    attachResponses_team_mem _ _ _ td htd
  have hsub := buildTeams_userIds_sublist _ _ _ _ _ _ t ht_mem
  have hnd_t : (t.2.1.map fun cm => cm.userId).Nodup :=
    List.Nodup.sublist hsub (permuteBy_map_nodup hperm pr.2
      (genMembers_userIds_nodup _ st.cmN (st.courseN + 1) st.userN _ (fun _ => rfl) _))
  rw [hmem_eq, hresp_eq]
  exact teamResponses_spec c' r' hnd_t

/-- **C4** (confirmed).  For every team of size `k` a run produces, exactly
`k * (k - 1)` responses are generated for that team — one per ordered pair
of distinct teammates — each carrying a score for every question of the
course's assessment, and never with rater equal to ratee. -/
theorem team_responses_complete (p : Params) (rng : Rng) (wy : ℕ)
    (cds : List CourseData) (hperm : Rng.ShufValid rng)
    (hrun : runModel p rng wy = some cds) :
    ∀ cd ∈ cds, ∀ td ∈ cd.teams,
      td.responses.length = td.members.length * (td.members.length - 1) ∧
      ∀ x ∈ td.responses, x.fromUserId ≠ x.toUserId ∧
        x.answers.map Prod.fst = cd.questions.map fun q => q.id :=
  runModel_forall (fun _ _ _ _ h => genCourse_responses hperm h) hrun

/-- Witness for C4 on the small run: its one team of two members holds
`2 * 1` responses, and the first one is not self-directed and answers all
five questions. -/
theorem team_responses_complete_witness :
    ((((runModel pSmall idRng 2025).getD []).headD default).teams.headD
        default).responses.length =
      ((((runModel pSmall idRng 2025).getD []).headD default).teams.headD
        default).members.length *
      (((((runModel pSmall idRng 2025).getD []).headD default).teams.headD
        default).members.length - 1) ∧
    ∀ x ∈ ((((runModel pSmall idRng 2025).getD []).headD default).teams.headD
        default).responses,
      x.fromUserId ≠ x.toUserId ∧
      x.answers.map Prod.fst =
        (((runModel pSmall idRng 2025).getD []).headD default).questions.map
          fun q => q.id :=
  team_responses_complete pSmall idRng 2025 ((runModel pSmall idRng 2025).getD [])
    (fun _ _ => List.Perm.refl _) (by decide)
    (((runModel pSmall idRng 2025).getD []).headD default) (by decide)
    ((((runModel pSmall idRng 2025).getD []).headD default).teams.headD default)
    (by decide)

/-- **C3** (code bug).  The claim states each of the eight export files holds
one data row per generated record.  The `teams` bucket is never appended to
(for any run its row list is empty), and on the concrete small run the store
holds 1 team and 3 users while `teams.csv` gets 0 data rows and `users.csv`
only the 1 teacher row (students are never exported). -/
theorem teams_csv_has_no_rows :
    (∀ cds, (csvRowsOf cds).teams = []) ∧
    (runModel pSmall idRng 2025).map (fun cds =>
        ((csvRowsOf cds).teams.length,
         (cds.map fun cd => cd.teams.length).sum,
         (csvRowsOf cds).users.length,
         (cds.map fun cd => 1 + cd.students.length).sum))
      = some (0, 1, 1, 3) :=
  ⟨fun _ => rfl, by decide⟩

end SeedData
